import Mathlib

/-!
Verification of the feature-assembly pipeline in
`openfold/features/data_pipeline.py`.

The embedding below follows the source file.  Numpy arrays are modelled as
nested lists, Python exceptions as `Except` errors.  The residue-constant
tables and the file parsers live outside the provided sources, so they are
modelled from the spec where a claim needs them (marked in doc comments).
-/

/-- Modelled from the spec: `residue_constants.HHBLITS_AA_TO_ID` (the
residue-to-code mapping used during MSA encoding, not under the provided
sources): an alphabet-to-ID mapping for the 20 standard residues plus the
unknown residue, with a 21st "gap" category for the alignment-gap symbol;
partial outside that alphabet (a symbol outside the mapping is an error). -/
def HHBLITS_AA_TO_ID (c : Char) : Option Nat :=
  if c = 'A' then some 0
  else if c = 'C' then some 1
  else if c = 'D' then some 2
  else if c = 'E' then some 3
  else if c = 'F' then some 4
  else if c = 'G' then some 5
  else if c = 'H' then some 6
  else if c = 'I' then some 7
  else if c = 'K' then some 8
  else if c = 'L' then some 9
  else if c = 'M' then some 10
  else if c = 'N' then some 11
  else if c = 'P' then some 12
  else if c = 'Q' then some 13
  else if c = 'R' then some 14
  else if c = 'S' then some 15
  else if c = 'T' then some 16
  else if c = 'V' then some 17
  else if c = 'W' then some 18
  else if c = 'Y' then some 19
  else if c = 'X' then some 20
  else if c = '-' then some 21
  else none

/-- Left-to-right encoding of a row's characters, failing at the first
symbol outside the mapping (the list comprehension's evaluation order). -/
def encodeChars : List Char → Option (List Nat)
  | [] => some []
  | c :: cs =>
    match HHBLITS_AA_TO_ID c with
    | none => none
    | some i =>
      match encodeChars cs with
      | none => none
      | some rest => some (i :: rest)

/-- `[residue_constants.HHBLITS_AA_TO_ID[res] for res in sequence]`:
residue-by-residue encoding of one MSA row; `none` models the `KeyError`
raised on a symbol outside the mapping. -/
def encodeSeq (s : String) : Option (List Nat) :=
  encodeChars s.data

/-- One row of a deletion matrix (per-column integer deletion counts). -/
abbrev DeletionRow := List Int

/-- `parsers.DeletionMatrix`: one deletion matrix, parallel to one MSA. -/
abbrev DeletionMatrix := List DeletionRow

/-- The Python exceptions raised by the pipeline functions. -/
inductive PipelineError where
  /-- `ValueError('At least one MSA must be provided.')` -/
  | emptyMsaList : PipelineError
  /-- `ValueError(f'MSA {msa_index} must contain at least one sequence.')` -/
  | emptyMsa (msa_index : Nat) : PipelineError
  /-- `KeyError` from `HHBLITS_AA_TO_ID[res]` on an unmapped symbol. -/
  | unknownResidue : PipelineError
  /-- `IndexError` from `deletion_matrices[msa_index][sequence_index]`. -/
  | missingDeletionRow : PipelineError
  /-- `ValueError` from `np.array(..., dtype=np.int32)` on a ragged nested
  list (numpy builds a fixed-dtype 2-D array only from rectangular input). -/
  | raggedArray : PipelineError
  /-- `ValueError(f'More than one input sequence found in {fasta_path}.')` -/
  | multiSequence : PipelineError
  /-- `ValueError('No chains in mmCIF file')` -/
  | noChain : PipelineError
deriving DecidableEq, Repr

/-- The loop state of `make_msa_features`: the `seen_sequences` set (kept as
a list, used only through membership), the `int_msa` accumulator and the
`deletion_matrix` accumulator. -/
structure MsaState where
  seen : List String
  int_msa : List (List Nat)
  deletion_matrix : List DeletionRow
deriving DecidableEq, Repr

/-- The inner loop of `make_msa_features`
(`for sequence_index, sequence in enumerate(msa)`): skip sequences already
seen, otherwise encode the row and append its deletion-matrix row. -/
def processMsa : List String → DeletionMatrix → Nat → MsaState →
    Except PipelineError MsaState
  | [], _, _, st => .ok st
  | s :: rest, dm, seqIdx, st =>
    if s ∈ st.seen then
      processMsa rest dm (seqIdx + 1) st
    else
      match encodeSeq s with
      | none => .error .unknownResidue
      | some enc =>
        match dm[seqIdx]? with
        | none => .error .missingDeletionRow
        | some drow =>
          processMsa rest dm (seqIdx + 1)
            ⟨s :: st.seen, st.int_msa ++ [enc], st.deletion_matrix ++ [drow]⟩

/-- The outer loop of `make_msa_features`
(`for msa_index, msa in enumerate(msas)`): each MSA must be non-empty; the
deletion matrix for MSA number `msa_index` is `deletion_matrices[msa_index]`
(here the head of the remaining list, consumed in step with the MSAs). -/
def processMsas : List (List String) → List DeletionMatrix → Nat → MsaState →
    Except PipelineError MsaState
  | [], _, _, st => .ok st
  | msa :: rest, dms, msaIdx, st =>
    if msa.isEmpty then .error (.emptyMsa msaIdx)
    else
      match processMsa msa (dms.headD []) 0 st with
      | .error e => .error e
      | .ok st1 => processMsas rest dms.tail (msaIdx + 1) st1

/-- The feature dictionary returned by `make_msa_features`. -/
structure MsaFeatures where
  deletion_matrix_int : DeletionMatrix
  msa : List (List Nat)
  num_alignments : List Nat
deriving DecidableEq, Repr

/-- All rows of a nested list share one length.  `np.array` with a fixed
integer dtype builds a 2-D array exactly from such input and raises
`ValueError` on ragged rows. -/
def isRectangular {α : Type} (rows : List (List α)) : Bool :=
  rows.all (fun r => r.length == (rows.headD []).length)

/-- The C-style cast a contemporary `np.array(..., dtype=np.int32)` applies
to each Python integer entry: reduction into the signed 32-bit range. -/
def toInt32 (x : Int) : Int :=
  (x + 2 ^ 31) % 2 ^ 32 - 2 ^ 31

/-- `make_msa_features(msas, deletion_matrices)`: global cross-MSA
deduplication of rows, residue encoding, and assembly of the feature
dictionary.  `num_res` is `len(msas[0][0])`, `num_alignments` the number of
surviving rows, broadcast over `num_res` positions.  The two
`np.array(..., dtype=np.int32)` calls (deletion matrix first, then the
encoded MSA, in source order) fail on ragged rows and cast each deletion
entry to int32; the encoded MSA's entries are values of the residue map,
all in `0..21`, on which the cast is exact. -/
def make_msa_features (msas : List (List String))
    (deletion_matrices : List DeletionMatrix) :
    Except PipelineError MsaFeatures :=
  if msas.isEmpty then .error .emptyMsaList
  else
    match processMsas msas deletion_matrices 0 ⟨[], [], []⟩ with
    | .error e => .error e
    | .ok st =>
      let num_res := ((msas.headD []).headD "").length
      let num_alignments := st.int_msa.length
      if isRectangular st.deletion_matrix then
        if isRectangular st.int_msa then
          .ok ⟨st.deletion_matrix.map (fun r => r.map toInt32), st.int_msa,
               List.replicate num_res num_alignments⟩
        else .error .raggedArray
      else .error .raggedArray

/-- Specification helper: the subsequence of rows a left-to-right pass keeps
when every row whose sequence is already in `seen` is dropped and every kept
row is added to `seen` (first occurrence wins). -/
def newSeqs : List String → List String → List String
  | _, [] => []
  | seen, s :: rest =>
    if s ∈ seen then newSeqs seen rest
    else s :: newSeqs (s :: seen) rest

/-- Each deletion matrix has at least as many rows as its MSA (implied by the
data-model invariant that the matrices are parallel to the MSAs). -/
def parallelLe : List (List String) → List DeletionMatrix → Bool
  | [], _ => true
  | _ :: _, [] => false
  | m :: ms, d :: ds => decide (m.length ≤ d.length) && parallelLe ms ds

/-- Every residue symbol of every row of every MSA is in the encoding map. -/
def allResiduesKnown (msas : List (List String)) : Bool :=
  msas.all (fun m => m.all (fun s => (encodeSeq s).isSome))

/-- Every MSA in the list has at least one row. -/
def allMsasNonempty (msas : List (List String)) : Bool :=
  msas.all (fun m => !m.isEmpty)

/-- Every row of every MSA and every deletion row has the width of the
first MSA's first row (the data model's alignment-width invariant, taken
across all MSAs of one query). -/
def uniformWidth (msas : List (List String))
    (dms : List DeletionMatrix) : Bool :=
  let w := ((msas.headD []).headD "").length
  msas.all (fun m => m.all (fun s => s.length == w)) &&
    dms.all (fun dm => dm.all (fun r => r.length == w))

/-- The spec's `EmptyInputError` covers both `ValueError`s of
`make_msa_features`: the empty MSA list and an MSA with zero rows. -/
def isEmptyInputError : PipelineError → Bool
  | .emptyMsaList => true
  | .emptyMsa _ => true
  | _ => false

/-- Modelled from the spec: the table behind
`residue_constants.restype_order_with_x` (not under the provided sources):
the 20 standard residue types in order, with the unknown residue `X` as the
21st category. -/
def restype_order_with_x_table : List (Char × Nat) :=
  [('A', 0), ('R', 1), ('N', 2), ('D', 3), ('C', 4), ('Q', 5), ('E', 6),
   ('G', 7), ('H', 8), ('I', 9), ('L', 10), ('K', 11), ('M', 12), ('F', 13),
   ('P', 14), ('S', 15), ('T', 16), ('W', 17), ('Y', 18), ('V', 19),
   ('X', 20)]

/-- Modelled from the spec: `residue_constants.restype_order_with_x` as a
lookup in the residue-type table. -/
def restype_order_with_x (c : Char) : Option Nat :=
  (restype_order_with_x_table.find? (fun p => p.1 == c)).map (fun p => p.2)

/-- The alphabet size of `restype_order_with_x` (20 residues plus `X`). -/
def restype_num_with_x : Nat := 21

/-- Modelled from the spec: `residue_constants.sequence_to_onehot` with
`map_unknown_to_x=True` (not under the provided sources): one row per
residue, each row a one-hot vector over the alphabet, any symbol outside the
mapping mapped to the unknown-residue category `X`. -/
def sequence_to_onehot (sequence : String) : List (List Nat) :=
  sequence.data.map (fun c =>
    let id := (restype_order_with_x c).getD 20
    (List.range restype_num_with_x).map (fun j => if j = id then 1 else 0))

/-- The feature dictionary returned by `make_sequence_features`. -/
structure SequenceFeatures where
  aatype : List (List Nat)
  between_segment_residues : List Int
  domain_name : List String
  residue_index : List Nat
  seq_length : List Nat
  sequence : List String
deriving DecidableEq, Repr

/-- `make_sequence_features(sequence, description, num_res)`. -/
def make_sequence_features (sequence description : String) (num_res : Nat) :
    SequenceFeatures :=
  { aatype := sequence_to_onehot sequence
    between_segment_residues := List.replicate num_res 0
    domain_name := [description]
    residue_index := List.range num_res
    seq_length := List.replicate num_res num_res
    sequence := [sequence] }

/-- Python `{**a, **b}` lookup semantics for two feature dictionaries
(modelled as partial maps): a key bound in `b` takes `b`'s value, otherwise
`a`'s. -/
def dictMerge {V : Type} (a b : String → Option V) : String → Option V :=
  fun k => match b k with
  | some v => some v
  | none => a k

/-- The merge on the return line of `DataPipeline.process_fasta`:
`{**sequence_features, **msa_features, **templates_result.features}`. -/
def processFastaMerge {V : Type} (sequence_features msa_features
    template_features : String → Option V) : String → Option V :=
  dictMerge (dictMerge sequence_features msa_features) template_features

/-- The merge on the return line of `DataPipeline.process_mmcif`:
`{**mmcif_feats, **templates_result.features, **msa_features}`. -/
def processMmcifMerge {V : Type} (mmcif_feats template_features
    msa_features : String → Option V) : String → Option V :=
  dictMerge (dictMerge mmcif_feats template_features) msa_features

/-- The record-count check and sequence-feature construction of
`DataPipeline.process_fasta`, over the already-parsed record lists
(`input_seqs`, `input_descs`) returned by the external `parsers.parse_fasta`:
raise unless exactly one record is present, then build the sequence features
from that record. -/
def process_fasta_sequence_features (input_seqs input_descs : List String) :
    Except PipelineError SequenceFeatures :=
  if input_seqs.length ≠ 1 then .error .multiSequence
  else
    .ok (make_sequence_features (input_seqs.headD "") (input_descs.headD "")
      (input_seqs.headD "").length)

/-- A chain of the structure record, exposing its identifier (the external
`mmcif.structure.get_chains()` yields these). -/
structure Chain where
  id : String
deriving DecidableEq, Repr

/-- The chain-selection step of `DataPipeline.process_mmcif`: if `chain_id`
is `None`, take the first chain of the structure record
(`next(chains, None)`), raising if there is none; otherwise use the given
chain id. -/
def selectChainId (chains : List Chain) (chain_id : Option String) :
    Except PipelineError String :=
  match chain_id with
  | some cid => .ok cid
  | none =>
    match chains with
    | [] => .error .noChain
    | c :: _ => .ok c.id

/-! ### Lemmas about the deduplication pass -/

/-- `newSeqs` only reads `seen` through membership. -/
theorem newSeqs_congr (l : List String) :
    ∀ seen1 seen2 : List String, (∀ x, x ∈ seen1 ↔ x ∈ seen2) →
    newSeqs seen1 l = newSeqs seen2 l := by
  induction l with
  | nil => intro seen1 seen2 _; rfl
  | cons s rest ih =>
    intro seen1 seen2 hmem
    by_cases hs : s ∈ seen1
    · have hs2 : s ∈ seen2 := (hmem s).mp hs
      simp only [newSeqs, if_pos hs, if_pos hs2]
      exact ih seen1 seen2 hmem
    · have hs2 : s ∉ seen2 := fun h => hs ((hmem s).mpr h)
      simp only [newSeqs, if_neg hs, if_neg hs2]
      refine congrArg _ (ih _ _ ?_)
      intro x
      simp only [List.mem_cons]
      exact or_congr Iff.rfl (hmem x)

/-- Splitting a deduplication pass at a list concatenation. -/
theorem newSeqs_append (l1 : List String) :
    ∀ (seen l2 : List String),
    newSeqs seen (l1 ++ l2) = newSeqs seen l1 ++ newSeqs (l1 ++ seen) l2 := by
  induction l1 with
  | nil => intro seen l2; rfl
  | cons s rest ih =>
    intro seen l2
    by_cases hs : s ∈ seen
    · simp only [List.cons_append, newSeqs, if_pos hs, List.append_eq]
      rw [ih seen l2]
      refine congrArg _ (newSeqs_congr _ _ _ ?_)
      intro x
      simp only [List.mem_append, List.mem_cons]
      constructor
      · rintro (h | h)
        · exact Or.inr (Or.inl h)
        · exact Or.inr (Or.inr h)
      · rintro (rfl | h | h)
        · exact Or.inr hs
        · exact Or.inl h
        · exact Or.inr h
    · simp only [List.cons_append, newSeqs, if_neg hs, List.append_eq]
      rw [ih (s :: seen) l2]
      refine congrArg _ (congrArg _ (newSeqs_congr _ _ _ ?_))
      intro x
      simp only [List.mem_append, List.mem_cons]
      tauto

/-- Membership in the kept rows: exactly the rows that occur in the list and
are not in the initial `seen` set. -/
theorem mem_newSeqs (l : List String) :
    ∀ (seen : List String) (x : String),
    x ∈ newSeqs seen l ↔ x ∈ l ∧ x ∉ seen := by
  induction l with
  | nil => intro seen x; simp [newSeqs]
  | cons s rest ih =>
    intro seen x
    by_cases hs : s ∈ seen
    · simp only [newSeqs, if_pos hs]
      rw [ih]
      constructor
      · rintro ⟨hx, hns⟩
        exact ⟨List.mem_cons_of_mem _ hx, hns⟩
      · rintro ⟨hx, hns⟩
        rcases List.mem_cons.mp hx with rfl | hx2
        · exact absurd hs hns
        · exact ⟨hx2, hns⟩
    · simp only [newSeqs, if_neg hs]
      constructor
      · intro hx
        rcases List.mem_cons.mp hx with rfl | hx2
        · exact ⟨List.mem_cons_self _ _, hs⟩
        · rcases (ih _ _).mp hx2 with ⟨hr, hns⟩
          exact ⟨List.mem_cons_of_mem _ hr,
            fun h => hns (List.mem_cons_of_mem _ h)⟩
      · rintro ⟨hx, hns⟩
        rcases List.mem_cons.mp hx with rfl | hx2
        · exact List.mem_cons_self _ _
        · by_cases hxs : x = s
          · exact hxs ▸ List.mem_cons_self _ _
          · refine List.mem_cons_of_mem _ ((ih _ _).mpr ⟨hx2, fun h => ?_⟩)
            rcases List.mem_cons.mp h with h1 | h1
            · exact hxs h1
            · exact hns h1

/-- The kept rows contain no duplicates. -/
theorem nodup_newSeqs (l : List String) :
    ∀ seen : List String, (newSeqs seen l).Nodup := by
  induction l with
  | nil => intro seen; simp [newSeqs]
  | cons s rest ih =>
    intro seen
    by_cases hs : s ∈ seen
    · simpa only [newSeqs, if_pos hs] using ih seen
    · simp only [newSeqs, if_neg hs, List.nodup_cons]
      refine ⟨fun h => ?_, ih _⟩
      exact ((mem_newSeqs rest (s :: seen) s).mp h).2 (List.mem_cons_self _ _)

/-- The number of rows kept by a pass starting from the empty `seen` set is
the number of distinct sequence strings in the list. -/
theorem length_newSeqs_nil (l : List String) :
    (newSeqs [] l).length = l.toFinset.card := by
  have hnd : (newSeqs [] l).Nodup := nodup_newSeqs l []
  have hset : (newSeqs [] l).toFinset = l.toFinset := by
    ext x
    simp [List.mem_toFinset, mem_newSeqs]
  calc (newSeqs [] l).length = (newSeqs [] l).toFinset.card :=
        (List.toFinset_card_of_nodup hnd).symm
    _ = l.toFinset.card := by rw [hset]

/-- The integer encoding of one kept row (total version of `encodeSeq`,
meaningful when all symbols are in the mapping). -/
def encRow (s : String) : List Nat :=
  (encodeSeq s).getD []

/-- Success and characterization of the inner loop: when every row of the
MSA encodes and the deletion matrix is long enough, the loop succeeds, the
`int_msa` accumulator is extended by the encodings of exactly the rows the
deduplication pass keeps, the deletion accumulator grows by the same count,
and the `seen` set gains exactly the rows of the MSA. -/
theorem processMsa_ok (msa : List String) :
    ∀ (dm : DeletionMatrix) (seqIdx : Nat) (st : MsaState),
    (∀ s ∈ msa, (encodeSeq s).isSome = true) →
    seqIdx + msa.length ≤ dm.length →
    ∃ st1, processMsa msa dm seqIdx st = .ok st1 ∧
      st1.int_msa = st.int_msa ++ (newSeqs st.seen msa).map encRow ∧
      st1.deletion_matrix.length =
        st.deletion_matrix.length + (newSeqs st.seen msa).length ∧
      (∀ x, x ∈ st1.seen ↔ x ∈ st.seen ∨ x ∈ msa) ∧
      (∀ r ∈ st1.deletion_matrix, r ∈ st.deletion_matrix ∨ r ∈ dm) := by
  induction msa with
  | nil =>
    intro dm seqIdx st _ _
    exact ⟨st, rfl, by simp [newSeqs], by simp [newSeqs],
      fun x => by simp [newSeqs], fun r hr => Or.inl hr⟩
  | cons s rest ih =>
    intro dm seqIdx st hgood hlen
    have hgs : (encodeSeq s).isSome = true := hgood s (List.mem_cons_self _ _)
    have hgrest : ∀ t ∈ rest, (encodeSeq t).isSome = true :=
      fun t ht => hgood t (List.mem_cons_of_mem _ ht)
    have hlen1 : (seqIdx + 1) + rest.length ≤ dm.length := by
      simp only [List.length_cons] at hlen
      omega
    by_cases hs : s ∈ st.seen
    · rcases ih dm (seqIdx + 1) st hgrest hlen1 with
        ⟨st1, heq, hint, hdel, hseen, hmem⟩
      refine ⟨st1, ?_, ?_, ?_, ?_, hmem⟩
      · simpa only [processMsa, if_pos hs] using heq
      · rw [hint]
        simp [newSeqs, hs]
      · rw [hdel]
        simp [newSeqs, hs]
      · intro x
        rw [hseen x]
        simp only [List.mem_cons]
        constructor
        · rintro (h | h)
          · exact Or.inl h
          · exact Or.inr (Or.inr h)
        · rintro (h | rfl | h)
          · exact Or.inl h
          · exact Or.inl hs
          · exact Or.inr h
    · obtain ⟨enc, henc⟩ := Option.isSome_iff_exists.mp hgs
      have hidx : seqIdx < dm.length := by
        simp only [List.length_cons] at hlen
        omega
      have hdrow : dm[seqIdx]? = some dm[seqIdx] := List.getElem?_eq_getElem hidx
      rcases ih dm (seqIdx + 1)
          ⟨s :: st.seen, st.int_msa ++ [enc],
            st.deletion_matrix ++ [dm[seqIdx]]⟩ hgrest hlen1 with
        ⟨st1, heq, hint, hdel, hseen, hmem⟩
      refine ⟨st1, ?_, ?_, ?_, ?_, ?_⟩
      · rw [show processMsa (s :: rest) dm seqIdx st
            = processMsa rest dm (seqIdx + 1)
              ⟨s :: st.seen, st.int_msa ++ [enc],
                st.deletion_matrix ++ [dm[seqIdx]]⟩ by
          simp only [processMsa, if_neg hs, henc, hdrow]]
        exact heq
      · rw [hint]
        simp only [newSeqs, if_neg hs, List.map_cons, encRow, henc,
          Option.getD_some, List.append_assoc, List.singleton_append]
      · rw [hdel]
        simp [newSeqs, hs]
        omega
      · intro x
        rw [hseen x]
        simp only [List.mem_cons]
        tauto
      · intro r hr
        rcases hmem r hr with hr1 | hr1
        · rcases List.mem_append.mp hr1 with hr2 | hr2
          · exact Or.inl hr2
          · have hre : r = dm[seqIdx] := by simpa using hr2
            exact Or.inr (hre ▸ List.getElem_mem hidx)
        · exact Or.inr hr1

/-- Success and characterization of the outer loop: when every MSA is
non-empty, every row encodes, and the deletion matrices are at least as long
as their MSAs, the loop succeeds and the accumulators are extended by
exactly the deduplication pass over the concatenation of all MSAs. -/
theorem processMsas_ok (msas : List (List String)) :
    ∀ (dms : List DeletionMatrix) (msaIdx : Nat) (st : MsaState),
    (∀ m ∈ msas, m ≠ []) →
    (∀ m ∈ msas, ∀ s ∈ m, (encodeSeq s).isSome = true) →
    parallelLe msas dms = true →
    ∃ st1, processMsas msas dms msaIdx st = .ok st1 ∧
      st1.int_msa = st.int_msa ++ (newSeqs st.seen msas.flatten).map encRow ∧
      st1.deletion_matrix.length =
        st.deletion_matrix.length + (newSeqs st.seen msas.flatten).length ∧
      (∀ x, x ∈ st1.seen ↔ x ∈ st.seen ∨ x ∈ msas.flatten) ∧
      (∀ r ∈ st1.deletion_matrix,
        r ∈ st.deletion_matrix ∨ ∃ dm ∈ dms, r ∈ dm) := by
  induction msas with
  | nil =>
    intro dms msaIdx st _ _ _
    exact ⟨st, rfl, by simp [newSeqs], by simp [newSeqs],
      fun x => by simp [newSeqs], fun r hr => Or.inl hr⟩
  | cons msa rest ih =>
    intro dms msaIdx st hne hgood hpar
    cases dms with
    | nil => simp [parallelLe] at hpar
    | cons d ds =>
      have hpar1 : msa.length ≤ d.length ∧ parallelLe rest ds = true := by
        simpa [parallelLe] using hpar
      have hmne : msa ≠ [] := hne msa (List.mem_cons_self _ _)
      have hme : msa.isEmpty = false := by simp [List.isEmpty_iff, hmne]
      rcases processMsa_ok msa d 0 st (hgood msa (List.mem_cons_self _ _))
          (by simpa using hpar1.1) with
        ⟨st1, heq1, hint1, hdel1, hseen1, hmem1⟩
      rcases ih ds (msaIdx + 1) st1
          (fun m hm => hne m (List.mem_cons_of_mem _ hm))
          (fun m hm => hgood m (List.mem_cons_of_mem _ hm)) hpar1.2 with
        ⟨st2, heq2, hint2, hdel2, hseen2, hmem2⟩
      have hcongr : newSeqs st1.seen rest.flatten
          = newSeqs (msa ++ st.seen) rest.flatten := by
        refine newSeqs_congr _ _ _ (fun x => ?_)
        rw [hseen1 x]
        simp only [List.mem_append]
        tauto
      refine ⟨st2, ?_, ?_, ?_, ?_, ?_⟩
      · rw [show processMsas (msa :: rest) (d :: ds) msaIdx st
            = processMsas rest ds (msaIdx + 1) st1 by
          simp only [processMsas, hme, Bool.false_eq_true, if_false,
            List.headD_cons, List.tail_cons, heq1]]
        exact heq2
      · rw [hint2, hint1, hcongr, List.flatten_cons, newSeqs_append,
          List.map_append, List.append_assoc]
      · rw [hdel2, hdel1, hcongr, List.flatten_cons, newSeqs_append,
          List.length_append]
        omega
      · intro x
        rw [hseen2 x, hseen1 x]
        simp only [List.flatten_cons, List.mem_append]
        tauto
      · intro r hr
        rcases hmem2 r hr with hr1 | ⟨dm, hdm, hrdm⟩
        · rcases hmem1 r hr1 with hr2 | hr2
          · exact Or.inl hr2
          · exact Or.inr ⟨d, List.mem_cons_self _ _, hr2⟩
        · exact Or.inr ⟨dm, List.mem_cons_of_mem _ hdm, hrdm⟩

/-- The inner loop only fails on an unmapped symbol or a missing deletion
row, never with an empty-input error. -/
theorem processMsa_error_cases (msa : List String) :
    ∀ (dm : DeletionMatrix) (seqIdx : Nat) (st : MsaState) (e : PipelineError),
    processMsa msa dm seqIdx st = .error e →
    e = .unknownResidue ∨ e = .missingDeletionRow := by
  induction msa with
  | nil =>
    intro dm seqIdx st e h
    exact absurd h (by simp [processMsa])
  | cons s rest ih =>
    intro dm seqIdx st e h
    by_cases hs : s ∈ st.seen
    · exact ih _ _ _ _ (by simpa only [processMsa, if_pos hs] using h)
    · rcases henc : encodeSeq s with _ | enc
      · simp only [processMsa, if_neg hs, henc, Except.error.injEq] at h
        exact Or.inl h.symm
      · rcases hdm : dm[seqIdx]? with _ | drow
        · simp only [processMsa, if_neg hs, henc, hdm,
            Except.error.injEq] at h
          exact Or.inr h.symm
        · exact ih _ _ _ _
            (by simpa only [processMsa, if_neg hs, henc, hdm] using h)

/-- With a long-enough deletion matrix, the inner loop either succeeds or
fails on an unmapped symbol. -/
theorem processMsa_ok_or_unknown (msa : List String) :
    ∀ (dm : DeletionMatrix) (seqIdx : Nat) (st : MsaState),
    seqIdx + msa.length ≤ dm.length →
    (∃ st1, processMsa msa dm seqIdx st = .ok st1) ∨
      processMsa msa dm seqIdx st = .error .unknownResidue := by
  induction msa with
  | nil =>
    intro dm seqIdx st _
    exact Or.inl ⟨st, rfl⟩
  | cons s rest ih =>
    intro dm seqIdx st hlen
    have hlen1 : seqIdx + 1 + rest.length ≤ dm.length := by
      simp only [List.length_cons] at hlen
      omega
    by_cases hs : s ∈ st.seen
    · have h := ih dm (seqIdx + 1) st hlen1
      simpa only [processMsa, if_pos hs] using h
    · rcases henc : encodeSeq s with _ | enc
      · right
        simp [processMsa, hs, henc]
      · have hidx : seqIdx < dm.length := by
          simp only [List.length_cons] at hlen
          omega
        have hdm : dm[seqIdx]? = some dm[seqIdx] := List.getElem?_eq_getElem hidx
        have h := ih dm (seqIdx + 1)
          ⟨s :: st.seen, st.int_msa ++ [enc],
            st.deletion_matrix ++ [dm[seqIdx]]⟩ hlen1
        simpa only [processMsa, if_neg hs, henc, hdm] using h

/-- If the inner loop succeeds and all already-seen sequences encode, then
every row of the MSA encodes, and so does everything seen afterwards. -/
theorem processMsa_ok_good (msa : List String) :
    ∀ (dm : DeletionMatrix) (seqIdx : Nat) (st st1 : MsaState),
    (∀ x ∈ st.seen, (encodeSeq x).isSome = true) →
    processMsa msa dm seqIdx st = .ok st1 →
    (∀ s ∈ msa, (encodeSeq s).isSome = true) ∧
    (∀ x ∈ st1.seen, (encodeSeq x).isSome = true) := by
  induction msa with
  | nil =>
    intro dm seqIdx st st1 hinv h
    have hst : st = st1 := by
      simpa only [processMsa, Except.ok.injEq] using h
    subst hst
    exact ⟨by simp, hinv⟩
  | cons s rest ih =>
    intro dm seqIdx st st1 hinv h
    by_cases hs : s ∈ st.seen
    · have h1 : processMsa rest dm (seqIdx + 1) st = .ok st1 := by
        simpa only [processMsa, if_pos hs] using h
      rcases ih _ _ _ _ hinv h1 with ⟨hg, hgi⟩
      refine ⟨fun t ht => ?_, hgi⟩
      rcases List.mem_cons.mp ht with rfl | ht2
      · exact hinv _ hs
      · exact hg _ ht2
    · rcases henc : encodeSeq s with _ | enc
      · simp [processMsa, hs, henc] at h
      · rcases hdm : dm[seqIdx]? with _ | drow
        · simp [processMsa, hs, henc, hdm] at h
        · have h1 : processMsa rest dm (seqIdx + 1)
              ⟨s :: st.seen, st.int_msa ++ [enc],
                st.deletion_matrix ++ [drow]⟩ = .ok st1 := by
            simpa only [processMsa, if_neg hs, henc, hdm] using h
          have hgs : (encodeSeq s).isSome = true := by simp [henc]
          have hinv1 : ∀ x ∈ s :: st.seen, (encodeSeq x).isSome = true := by
            intro x hx
            rcases List.mem_cons.mp hx with rfl | hx2
            · exact hgs
            · exact hinv x hx2
          rcases ih _ _ _ _ hinv1 h1 with ⟨hg, hgi⟩
          refine ⟨fun t ht => ?_, hgi⟩
          rcases List.mem_cons.mp ht with rfl | ht2
          · exact hgs
          · exact hg _ ht2

/-- If the outer loop succeeds and all already-seen sequences encode, then
every MSA is non-empty and every row of every MSA encodes. -/
theorem processMsas_ok_good (msas : List (List String)) :
    ∀ (dms : List DeletionMatrix) (msaIdx : Nat) (st st1 : MsaState),
    (∀ x ∈ st.seen, (encodeSeq x).isSome = true) →
    processMsas msas dms msaIdx st = .ok st1 →
    ∀ m ∈ msas, m ≠ [] ∧ ∀ s ∈ m, (encodeSeq s).isSome = true := by
  induction msas with
  | nil =>
    intro dms msaIdx st st1 _ _ m hm
    exact absurd hm (List.not_mem_nil m)
  | cons msa rest ih =>
    intro dms msaIdx st st1 hinv h
    by_cases hie : msa.isEmpty
    · simp [processMsas, hie] at h
    · have hie1 : msa.isEmpty = false := by simpa using hie
      rcases hpm : processMsa msa (dms.headD []) 0 st with e | stm
      · simp only [processMsas, hie1, Bool.false_eq_true, if_false, hpm] at h
        exact Except.noConfusion h
      · have h1 : processMsas rest dms.tail (msaIdx + 1) stm = .ok st1 := by
          simpa only [processMsas, hie1, Bool.false_eq_true, if_false, hpm]
            using h
        rcases processMsa_ok_good msa _ _ _ _ hinv hpm with ⟨hg, hgi⟩
        intro m hm
        rcases List.mem_cons.mp hm with rfl | hm2
        · exact ⟨by simpa [List.isEmpty_iff] using hie1, hg⟩
        · exact ih _ _ _ _ hgi h1 m hm2

/-- Under the symbol and parallelism preconditions, the outer loop either
succeeds or fails by naming an empty MSA. -/
theorem processMsas_ok_or_empty (msas : List (List String)) :
    ∀ (dms : List DeletionMatrix) (msaIdx : Nat) (st : MsaState),
    (∀ m ∈ msas, ∀ s ∈ m, (encodeSeq s).isSome = true) →
    parallelLe msas dms = true →
    (∃ st1, processMsas msas dms msaIdx st = .ok st1) ∨
      (∃ i, processMsas msas dms msaIdx st = .error (.emptyMsa i)) := by
  induction msas with
  | nil =>
    intro dms msaIdx st _ _
    exact Or.inl ⟨st, rfl⟩
  | cons msa rest ih =>
    intro dms msaIdx st hgood hpar
    cases dms with
    | nil => simp [parallelLe] at hpar
    | cons d ds =>
      have hpar1 : msa.length ≤ d.length ∧ parallelLe rest ds = true := by
        simpa [parallelLe] using hpar
      by_cases hie : msa.isEmpty
      · exact Or.inr ⟨msaIdx, by simp [processMsas, hie]⟩
      · have hie1 : msa.isEmpty = false := by simpa using hie
        rcases processMsa_ok msa d 0 st (hgood msa (List.mem_cons_self _ _))
            (by simpa using hpar1.1) with ⟨stm, hpm, _, _, _, _⟩
        rcases ih ds (msaIdx + 1) stm
            (fun m hm => hgood m (List.mem_cons_of_mem _ hm)) hpar1.2 with
          ⟨st1, h1⟩ | ⟨i, h1⟩
        · refine Or.inl ⟨st1, ?_⟩
          simpa only [processMsas, hie1, Bool.false_eq_true, if_false,
            List.headD_cons, List.tail_cons, hpm] using h1
        · refine Or.inr ⟨i, ?_⟩
          simpa only [processMsas, hie1, Bool.false_eq_true, if_false,
            List.headD_cons, List.tail_cons, hpm] using h1

/-- Under the non-emptiness and parallelism preconditions, the outer loop
either succeeds or fails on an unmapped symbol. -/
theorem processMsas_ok_or_unknown (msas : List (List String)) :
    ∀ (dms : List DeletionMatrix) (msaIdx : Nat) (st : MsaState),
    (∀ m ∈ msas, m ≠ []) →
    parallelLe msas dms = true →
    (∃ st1, processMsas msas dms msaIdx st = .ok st1) ∨
      processMsas msas dms msaIdx st = .error .unknownResidue := by
  induction msas with
  | nil =>
    intro dms msaIdx st _ _
    exact Or.inl ⟨st, rfl⟩
  | cons msa rest ih =>
    intro dms msaIdx st hne hpar
    cases dms with
    | nil => simp [parallelLe] at hpar
    | cons d ds =>
      have hpar1 : msa.length ≤ d.length ∧ parallelLe rest ds = true := by
        simpa [parallelLe] using hpar
      have hie1 : msa.isEmpty = false := by
        simp [List.isEmpty_iff, hne msa (List.mem_cons_self _ _)]
      rcases processMsa_ok_or_unknown msa d 0 st (by simpa using hpar1.1) with
        ⟨stm, hpm⟩ | hpm
      · rcases ih ds (msaIdx + 1) stm
            (fun m hm => hne m (List.mem_cons_of_mem _ hm)) hpar1.2 with
          ⟨st1, h1⟩ | h1
        · refine Or.inl ⟨st1, ?_⟩
          simpa only [processMsas, hie1, Bool.false_eq_true, if_false,
            List.headD_cons, List.tail_cons, hpm] using h1
        · refine Or.inr ?_
          simpa only [processMsas, hie1, Bool.false_eq_true, if_false,
            List.headD_cons, List.tail_cons, hpm] using h1
      · refine Or.inr ?_
        simp only [processMsas, hie1, Bool.false_eq_true, if_false,
          List.headD_cons, List.tail_cons, hpm]

/-- An empty-MSA error of the outer loop names an MSA that is empty. -/
theorem processMsas_emptyMsa_pos (msas : List (List String)) :
    ∀ (dms : List DeletionMatrix) (msaIdx : Nat) (st : MsaState) (k : Nat),
    processMsas msas dms msaIdx st = .error (.emptyMsa k) →
    ∃ i, k = msaIdx + i ∧ msas[i]? = some [] := by
  induction msas with
  | nil =>
    intro dms msaIdx st k h
    exact absurd h (by simp [processMsas])
  | cons msa rest ih =>
    intro dms msaIdx st k h
    by_cases hie : msa.isEmpty
    · have hmeq : msa = [] := by simpa [List.isEmpty_iff] using hie
      have hk : msaIdx = k := by
        have := h
        simp only [processMsas, hie, if_true, Except.error.injEq,
          PipelineError.emptyMsa.injEq] at this
        exact this
      exact ⟨0, by omega, by simp [hmeq]⟩
    · have hie1 : msa.isEmpty = false := by simpa using hie
      rcases hpm : processMsa msa (dms.headD []) 0 st with e | stm
      · have he : e = .emptyMsa k := by
          simpa only [processMsas, hie1, Bool.false_eq_true, if_false, hpm,
            Except.error.injEq] using h
        rcases processMsa_error_cases msa _ _ _ _ hpm with h1 | h1 <;>
          simp [he] at h1
      · have h1 : processMsas rest dms.tail (msaIdx + 1) stm
            = .error (.emptyMsa k) := by
          simpa only [processMsas, hie1, Bool.false_eq_true, if_false, hpm]
            using h
        rcases ih _ _ _ _ h1 with ⟨i, hk, hsome⟩
        exact ⟨i + 1, by omega, by simpa using hsome⟩

/-- `allResiduesKnown` unfolded to a proposition. -/
theorem allResiduesKnown_iff (msas : List (List String)) :
    allResiduesKnown msas = true ↔
      ∀ m ∈ msas, ∀ s ∈ m, (encodeSeq s).isSome = true := by
  simp [allResiduesKnown, List.all_eq_true]

/-- `allMsasNonempty` unfolded to a proposition. -/
theorem allMsasNonempty_iff (msas : List (List String)) :
    allMsasNonempty msas = true ↔ ∀ m ∈ msas, m ≠ [] := by
  simp [allMsasNonempty, List.all_eq_true, List.isEmpty_iff]

/-- The row encoding preserves length. -/
theorem encodeChars_length (cs : List Char) :
    ∀ e, encodeChars cs = some e → e.length = cs.length := by
  induction cs with
  | nil =>
    intro e h
    simp only [encodeChars, Option.some.injEq] at h
    subst h
    rfl
  | cons c cs ih =>
    intro e h
    rcases hc : HHBLITS_AA_TO_ID c with _ | i
    · simp [encodeChars, hc] at h
    · rcases hr : encodeChars cs with _ | rest
      · simp [encodeChars, hc, hr] at h
      · simp only [encodeChars, hc, hr, Option.some.injEq] at h
        subst h
        simp [ih rest hr]

/-- The row encoding preserves the sequence length. -/
theorem encodeSeq_length (s : String) (e : List Nat)
    (h : encodeSeq s = some e) : e.length = s.length :=
  encodeChars_length s.data e h

/-- The total row encoding has the sequence's length whenever the row
encodes. -/
theorem encRow_length (s : String) (h : (encodeSeq s).isSome = true) :
    (encRow s).length = s.length := by
  obtain ⟨e, he⟩ := Option.isSome_iff_exists.mp h
  rw [encRow, he, Option.getD_some]
  exact encodeSeq_length s e he

/-- A nested list whose rows share one length is rectangular. -/
theorem isRectangular_of_forall {α : Type} (rows : List (List α)) (w : Nat)
    (h : ∀ r ∈ rows, r.length = w) : isRectangular rows = true := by
  cases rows with
  | nil => rfl
  | cons a t =>
    have ha : a.length = w := h a (List.mem_cons_self _ _)
    simp only [isRectangular, List.all_eq_true, List.headD_cons]
    intro r hr
    have hrw := h r hr
    simp [hrw, ha]

/-- Whenever `make_msa_features` returns a feature dictionary (under the
symbol, parallelism and non-emptiness preconditions), `msa` is exactly the
residue-encoded list of rows kept by the first-occurrence deduplication
pass over the concatenated MSAs, `deletion_matrix_int` has one row per kept
row, and `num_alignments` broadcasts the kept-row count over
`len(msas[0][0])` positions. -/
theorem make_msa_features_ok_content (msas : List (List String))
    (dms : List DeletionMatrix)
    (hne : msas ≠ [])
    (hall : allMsasNonempty msas = true)
    (hknown : allResiduesKnown msas = true)
    (hpar : parallelLe msas dms = true) :
    ∀ f, make_msa_features msas dms = .ok f →
      f.msa = (newSeqs [] msas.flatten).map encRow ∧
      f.deletion_matrix_int.length = (newSeqs [] msas.flatten).length ∧
      f.num_alignments =
        List.replicate ((msas.headD []).headD "").length
          (newSeqs [] msas.flatten).length := by
  intro f hok
  have hA : ∀ m ∈ msas, m ≠ [] := (allMsasNonempty_iff msas).mp hall
  have hB : ∀ m ∈ msas, ∀ s ∈ m, (encodeSeq s).isSome = true :=
    (allResiduesKnown_iff msas).mp hknown
  have hie : msas.isEmpty = false := by simp [List.isEmpty_iff, hne]
  rcases processMsas_ok msas dms 0 ⟨[], [], []⟩ hA hB hpar with
    ⟨st, heq, hint, hdel, _, _⟩
  have hintm : st.int_msa = (newSeqs [] msas.flatten).map encRow := by
    simpa using hint
  have hdelm : st.deletion_matrix.length = (newSeqs [] msas.flatten).length := by
    simpa using hdel
  by_cases h1 : isRectangular st.deletion_matrix
  · by_cases h2 : isRectangular st.int_msa
    · simp only [make_msa_features, hie, Bool.false_eq_true, if_false, heq,
        h1, h2, if_true, Except.ok.injEq] at hok
      subst hok
      refine ⟨hintm, ?_, ?_⟩
      · simp [List.length_map, hdelm]
      · rw [hintm, List.length_map]
    · simp [make_msa_features, hie, heq, h1, h2] at hok
  · simp [make_msa_features, hie, heq, h1] at hok

/-- Under the preconditions, `make_msa_features` either returns a feature
dictionary or fails with the ragged-array `ValueError` of `np.array`. -/
theorem make_msa_features_ok_or_ragged (msas : List (List String))
    (dms : List DeletionMatrix)
    (hne : msas ≠ [])
    (hall : allMsasNonempty msas = true)
    (hknown : allResiduesKnown msas = true)
    (hpar : parallelLe msas dms = true) :
    (∃ f, make_msa_features msas dms = .ok f) ∨
      make_msa_features msas dms = .error .raggedArray := by
  have hA : ∀ m ∈ msas, m ≠ [] := (allMsasNonempty_iff msas).mp hall
  have hB : ∀ m ∈ msas, ∀ s ∈ m, (encodeSeq s).isSome = true :=
    (allResiduesKnown_iff msas).mp hknown
  have hie : msas.isEmpty = false := by simp [List.isEmpty_iff, hne]
  rcases processMsas_ok msas dms 0 ⟨[], [], []⟩ hA hB hpar with
    ⟨st, heq, _, _, _, _⟩
  by_cases h1 : isRectangular st.deletion_matrix
  · by_cases h2 : isRectangular st.int_msa
    · refine Or.inl ⟨⟨st.deletion_matrix.map (fun r => r.map toInt32),
        st.int_msa,
        List.replicate ((msas.headD []).headD "").length st.int_msa.length⟩,
        ?_⟩
      simp only [make_msa_features, hie, Bool.false_eq_true, if_false, heq,
        h1, h2, if_true]
    · refine Or.inr ?_
      simp [make_msa_features, hie, heq, h1, h2]
  · refine Or.inr ?_
    simp [make_msa_features, hie, heq, h1]

/-- Under the preconditions, uniform row widths (the data model's
alignment-width invariant taken across the MSAs of one query) guarantee
that both `np.array` calls see rectangular input, so `make_msa_features`
succeeds with the characterized content. -/
theorem make_msa_features_ok_of_uniform (msas : List (List String))
    (dms : List DeletionMatrix)
    (hne : msas ≠ [])
    (hall : allMsasNonempty msas = true)
    (hknown : allResiduesKnown msas = true)
    (hpar : parallelLe msas dms = true)
    (hw : uniformWidth msas dms = true) :
    ∃ f, make_msa_features msas dms = .ok f ∧
      f.msa = (newSeqs [] msas.flatten).map encRow ∧
      f.deletion_matrix_int.length = (newSeqs [] msas.flatten).length ∧
      f.num_alignments =
        List.replicate ((msas.headD []).headD "").length
          (newSeqs [] msas.flatten).length := by
  have hA : ∀ m ∈ msas, m ≠ [] := (allMsasNonempty_iff msas).mp hall
  have hB : ∀ m ∈ msas, ∀ s ∈ m, (encodeSeq s).isSome = true :=
    (allResiduesKnown_iff msas).mp hknown
  have hie : msas.isEmpty = false := by simp [List.isEmpty_iff, hne]
  simp only [uniformWidth, Bool.and_eq_true, List.all_eq_true] at hw
  have hw1 : ∀ m ∈ msas, ∀ s ∈ m,
      s.length = ((msas.headD []).headD "").length := by
    intro m hm s hs
    have hws := hw.1 m hm s hs
    simpa using hws
  have hw2 : ∀ dm ∈ dms, ∀ r ∈ dm,
      r.length = ((msas.headD []).headD "").length := by
    intro dm hdm r hr
    have hwr := hw.2 dm hdm r hr
    simpa using hwr
  rcases processMsas_ok msas dms 0 ⟨[], [], []⟩ hA hB hpar with
    ⟨st, heq, hint, hdel, _, hmem⟩
  have hintm : st.int_msa = (newSeqs [] msas.flatten).map encRow := by
    simpa using hint
  have hdelm : st.deletion_matrix.length = (newSeqs [] msas.flatten).length := by
    simpa using hdel
  have hr2 : isRectangular st.int_msa = true := by
    rw [hintm]
    refine isRectangular_of_forall _ ((msas.headD []).headD "").length ?_
    intro r hr
    rcases List.mem_map.mp hr with ⟨s, hskept, rfl⟩
    have hsfl : s ∈ msas.flatten := ((mem_newSeqs _ _ _).mp hskept).1
    rcases List.mem_flatten.mp hsfl with ⟨m, hm, hsm⟩
    rw [encRow_length s (hB m hm s hsm)]
    exact hw1 m hm s hsm
  have hr1 : isRectangular st.deletion_matrix = true := by
    refine isRectangular_of_forall _ ((msas.headD []).headD "").length ?_
    intro r hr
    rcases hmem r hr with hr0 | ⟨dm, hdm, hrdm⟩
    · exact absurd hr0 (List.not_mem_nil r)
    · exact hw2 dm hdm r hrdm
  refine ⟨⟨st.deletion_matrix.map (fun r => r.map toInt32), st.int_msa,
      List.replicate ((msas.headD []).headD "").length st.int_msa.length⟩,
    ?_, hintm, ?_, ?_⟩
  · simp only [make_msa_features, hie, Bool.false_eq_true, if_false, heq,
      hr1, hr2, if_true]
  · simp [List.length_map, hdelm]
  · rw [hintm, List.length_map]

/-- C1: For every non-empty ordered list of MSAs with parallel per-MSA
deletion matrices, each MSA non-empty and all residue symbols in the
encoding map: whenever `make_msa_features` returns its feature dictionary,
the `msa` array has exactly as many rows as there are distinct sequence
strings across all input MSAs combined, and the `deletion_matrix_int` array
has that same number of rows; under the data model's alignment-width
invariant (uniform row width, without which the `np.array` calls raise and
no array is returned) the dictionary is indeed returned with those row
counts. -/
theorem msa_row_count_eq_distinct_count (msas : List (List String))
    (dms : List DeletionMatrix)
    (hne : msas ≠ [])
    (hall : allMsasNonempty msas = true)
    (hknown : allResiduesKnown msas = true)
    (hpar : parallelLe msas dms = true) :
    (∀ f, make_msa_features msas dms = .ok f →
      f.msa.length = msas.flatten.toFinset.card ∧
      f.deletion_matrix_int.length = msas.flatten.toFinset.card) ∧
    (uniformWidth msas dms = true →
      ∃ f, make_msa_features msas dms = .ok f ∧
        f.msa.length = msas.flatten.toFinset.card ∧
        f.deletion_matrix_int.length = msas.flatten.toFinset.card) := by
  constructor
  · intro f hok
    rcases make_msa_features_ok_content msas dms hne hall hknown hpar f hok
      with ⟨hmsa, hdel, _⟩
    exact ⟨by rw [hmsa, List.length_map, length_newSeqs_nil],
      by rw [hdel, length_newSeqs_nil]⟩
  · intro hw
    rcases make_msa_features_ok_of_uniform msas dms hne hall hknown hpar hw
      with ⟨f, hok, hmsa, hdel, _⟩
    exact ⟨f, hok, by rw [hmsa, List.length_map, length_newSeqs_nil],
      by rw [hdel, length_newSeqs_nil]⟩

/-- Witness for the row-count claim on a concrete uniform-width input with
one duplicated row across two MSAs: three total rows, two distinct. -/
theorem msa_row_count_eq_distinct_count_witness :
    ([["AC"], ["AC", "DE"]] : List (List String)) ≠ [] ∧
    allMsasNonempty [["AC"], ["AC", "DE"]] = true ∧
    allResiduesKnown [["AC"], ["AC", "DE"]] = true ∧
    parallelLe [["AC"], ["AC", "DE"]]
      [[[0, 0]], [[0, 0], [1, 1]]] = true ∧
    uniformWidth [["AC"], ["AC", "DE"]]
      [[[0, 0]], [[0, 0], [1, 1]]] = true ∧
    ∃ f, make_msa_features [["AC"], ["AC", "DE"]]
        [[[0, 0]], [[0, 0], [1, 1]]] = .ok f ∧
      f.msa.length = ([["AC"], ["AC", "DE"]] : List (List String)).flatten.toFinset.card ∧
      f.deletion_matrix_int.length
        = ([["AC"], ["AC", "DE"]] : List (List String)).flatten.toFinset.card :=
  ⟨by decide, by decide, by decide, by decide, by decide,
    (msa_row_count_eq_distinct_count _ _ (by decide) (by decide) (by decide)
      (by decide)).2 (by decide)⟩

/-- C4: The canonical residue count `num_res` is `len(msas[0][0])`, taken
from the first MSA's first row and never compared against any other row's
width (the concrete conjunct returns successfully with deletion rows of
width 5 against `num_res = 2`; only numpy's own rectangularity of each
array applies).  Whenever the feature dictionary is returned,
`num_alignments` is a one-dimensional array of length `num_res` whose every
entry is the surviving row count, and `msa` and `deletion_matrix_int` both
have exactly the surviving row count as their number of rows; under the
uniform-width invariant the dictionary is indeed returned. -/
theorem msa_feature_shapes (msas : List (List String))
    (dms : List DeletionMatrix)
    (hne : msas ≠ [])
    (hall : allMsasNonempty msas = true)
    (hknown : allResiduesKnown msas = true)
    (hpar : parallelLe msas dms = true) :
    (∀ f, make_msa_features msas dms = .ok f →
      f.num_alignments
        = List.replicate ((msas.headD []).headD "").length f.msa.length ∧
      f.msa.length = (newSeqs [] msas.flatten).length ∧
      f.deletion_matrix_int.length = f.msa.length) ∧
    (uniformWidth msas dms = true →
      ∃ f, make_msa_features msas dms = .ok f) ∧
    make_msa_features [["AC"]] [[[1, 2, 3, 4, 5]]]
      = .ok ⟨[[1, 2, 3, 4, 5]], [[0, 1]], [1, 1]⟩ := by
  refine ⟨?_, ?_, ?_⟩
  · intro f hok
    rcases make_msa_features_ok_content msas dms hne hall hknown hpar f hok
      with ⟨hmsa, hdel, hnum⟩
    have hlen : f.msa.length = (newSeqs [] msas.flatten).length := by
      rw [hmsa, List.length_map]
    refine ⟨?_, hlen, ?_⟩
    · rw [hnum, hlen]
    · rw [hdel, hlen]
  · intro hw
    rcases make_msa_features_ok_of_uniform msas dms hne hall hknown hpar hw
      with ⟨f, hok, _, _, _⟩
    exact ⟨f, hok⟩
  · rfl

/-- Witness for the shape claim on a concrete uniform-width input. -/
theorem msa_feature_shapes_witness :
    ([["AC"], ["AC", "DE"]] : List (List String)) ≠ [] ∧
    allMsasNonempty [["AC"], ["AC", "DE"]] = true ∧
    allResiduesKnown [["AC"], ["AC", "DE"]] = true ∧
    parallelLe [["AC"], ["AC", "DE"]] [[[0, 0]], [[0, 0], [1, 1]]] = true ∧
    uniformWidth [["AC"], ["AC", "DE"]] [[[0, 0]], [[0, 0], [1, 1]]] = true ∧
    ∃ f, make_msa_features [["AC"], ["AC", "DE"]]
      [[[0, 0]], [[0, 0], [1, 1]]] = .ok f :=
  ⟨by decide, by decide, by decide, by decide, by decide,
    (msa_feature_shapes _ _ (by decide) (by decide) (by decide)
      (by decide)).2.1 (by decide)⟩

/-- C2: Deduplication is order-stable with first occurrence winning.  With
MSA A = `[s1, s2]` (deletion rows `d1`, `d2`) and MSA B = `[s2, s3]`
(deletion rows `d2'`, `d3`), all rows of the alignment width of `s1` and
all deletion rows of one width (so that the `np.array` calls succeed), the
call over (A, B) yields exactly the three rows (s1, s2, s3) in that order,
s2 carrying A's deletion row `d2`; the call over (B, A) yields
(s2, s3, s1) in that order, s2 carrying B's deletion row `d2'`.  Deletion
rows are stored through the int32 cast of `np.array(..., dtype=np.int32)`. -/
theorem msa_dedup_order_stable (s1 s2 s3 : String) (e1 e2 e3 : List Nat)
    (d1 d2 d2' d3 : DeletionRow)
    (h12 : s1 ≠ s2) (h13 : s1 ≠ s3) (h23 : s2 ≠ s3)
    (he1 : encodeSeq s1 = some e1) (he2 : encodeSeq s2 = some e2)
    (he3 : encodeSeq s3 = some e3)
    (hw2 : s2.length = s1.length) (hw3 : s3.length = s1.length)
    (hd2 : d2.length = d1.length) (hd2b : d2'.length = d1.length)
    (hd3 : d3.length = d1.length) :
    make_msa_features [[s1, s2], [s2, s3]] [[d1, d2], [d2', d3]]
      = .ok ⟨[d1.map toInt32, d2.map toInt32, d3.map toInt32],
          [e1, e2, e3], List.replicate s1.length 3⟩ ∧
    make_msa_features [[s2, s3], [s1, s2]] [[d2', d3], [d1, d2]]
      = .ok ⟨[d2'.map toInt32, d3.map toInt32, d1.map toInt32],
          [e2, e3, e1], List.replicate s2.length 3⟩ := by
  have he1l := encodeSeq_length s1 e1 he1
  have he2l := encodeSeq_length s2 e2 he2
  have he3l := encodeSeq_length s3 e3 he3
  have hrI1 : isRectangular [e1, e2, e3] = true := by
    refine isRectangular_of_forall _ s1.length ?_
    intro r hr
    rcases List.mem_cons.mp hr with rfl | hr
    · exact he1l
    rcases List.mem_cons.mp hr with rfl | hr
    · rw [he2l]; exact hw2
    rcases List.mem_cons.mp hr with rfl | hr
    · rw [he3l]; exact hw3
    · exact absurd hr (List.not_mem_nil r)
  have hrI2 : isRectangular [e2, e3, e1] = true := by
    refine isRectangular_of_forall _ s1.length ?_
    intro r hr
    rcases List.mem_cons.mp hr with rfl | hr
    · rw [he2l]; exact hw2
    rcases List.mem_cons.mp hr with rfl | hr
    · rw [he3l]; exact hw3
    rcases List.mem_cons.mp hr with rfl | hr
    · exact he1l
    · exact absurd hr (List.not_mem_nil r)
  have hrD1 : isRectangular [d1, d2, d3] = true := by
    refine isRectangular_of_forall _ d1.length ?_
    intro r hr
    rcases List.mem_cons.mp hr with rfl | hr
    · rfl
    rcases List.mem_cons.mp hr with rfl | hr
    · exact hd2
    rcases List.mem_cons.mp hr with rfl | hr
    · exact hd3
    · exact absurd hr (List.not_mem_nil r)
  have hrD2 : isRectangular [d2', d3, d1] = true := by
    refine isRectangular_of_forall _ d1.length ?_
    intro r hr
    rcases List.mem_cons.mp hr with rfl | hr
    · exact hd2b
    rcases List.mem_cons.mp hr with rfl | hr
    · exact hd3
    rcases List.mem_cons.mp hr with rfl | hr
    · rfl
    · exact absurd hr (List.not_mem_nil r)
  constructor
  · simp [make_msa_features, processMsas, processMsa, he1, he2, he3,
      h12, h13, h23, Ne.symm h12, Ne.symm h13, Ne.symm h23, hrD1, hrI1]
  · simp [make_msa_features, processMsas, processMsa, he1, he2, he3,
      h12, h13, h23, Ne.symm h12, Ne.symm h13, Ne.symm h23, hrD2, hrI2]

/-- Witness for the order-stability claim at concrete sequences "A", "C",
"D" (encodings `[0]`, `[1]`, `[2]`) with distinguishable deletion rows. -/
theorem msa_dedup_order_stable_witness :
    ("A" : String) ≠ "C" ∧ ("A" : String) ≠ "D" ∧ ("C" : String) ≠ "D" ∧
    make_msa_features [["A", "C"], ["C", "D"]] [[[10], [20]], [[21], [30]]]
      = .ok ⟨[[10], [20], [30]], [[0], [1], [2]],
          List.replicate ("A" : String).length 3⟩ ∧
    make_msa_features [["C", "D"], ["A", "C"]] [[[21], [30]], [[10], [20]]]
      = .ok ⟨[[21], [30], [10]], [[1], [2], [0]],
          List.replicate ("C" : String).length 3⟩ := by
  have h := msa_dedup_order_stable "A" "C" "D" [0] [1] [2]
    [10] [20] [21] [30] (by decide) (by decide) (by decide)
    (by decide) (by decide) (by decide) (by decide) (by decide)
    (by decide) (by decide) (by decide)
  refine ⟨by decide, by decide, by decide, ?_, ?_⟩
  · rw [h.1]
    rfl
  · rw [h.2]
    rfl

/-- C3: Under the symbol and parallelism preconditions, `make_msa_features`
raises an empty-input `ValueError` exactly when the MSA list is empty or
some MSA has zero rows; an empty-MSA error names an MSA that is indeed
empty; in particular the empty MSA list raises the empty-list error and a
list holding one zero-row MSA raises the error naming position 0. -/
theorem msa_empty_input_error (msas : List (List String))
    (dms : List DeletionMatrix)
    (hknown : allResiduesKnown msas = true)
    (hpar : parallelLe msas dms = true) :
    ((∃ e, make_msa_features msas dms = .error e ∧ isEmptyInputError e = true)
      ↔ (msas = [] ∨ ∃ m ∈ msas, m = [])) ∧
    (∀ i, make_msa_features msas dms = .error (.emptyMsa i) →
      msas[i]? = some []) ∧
    make_msa_features [] [] = .error .emptyMsaList ∧
    make_msa_features [[]] [[]] = .error (.emptyMsa 0) := by
  refine ⟨⟨?_, ?_⟩, ?_, rfl, rfl⟩
  · rintro ⟨e, herr, hemp⟩
    by_contra hcon
    push_neg at hcon
    obtain ⟨hmn, hno⟩ := hcon
    have hall : allMsasNonempty msas = true := (allMsasNonempty_iff msas).mpr hno
    rcases make_msa_features_ok_or_ragged msas dms hmn hall hknown hpar with
      ⟨f, hok⟩ | hrag
    · rw [hok] at herr
      exact Except.noConfusion herr
    · rw [hrag] at herr
      have he : PipelineError.raggedArray = e := by
        injection herr
      rw [← he] at hemp
      simp [isEmptyInputError] at hemp
  · rintro (rfl | ⟨m, hm, rfl⟩)
    · exact ⟨.emptyMsaList, by simp [make_msa_features], rfl⟩
    · have hne : msas ≠ [] := by
        rintro rfl
        exact absurd hm (List.not_mem_nil _)
      have hgood := (allResiduesKnown_iff msas).mp hknown
      rcases processMsas_ok_or_empty msas dms 0 ⟨[], [], []⟩ hgood hpar with
        ⟨st1, hok⟩ | ⟨i, herr⟩
      · have hbad := processMsas_ok_good msas dms 0 _ _
          (fun x hx => absurd hx (List.not_mem_nil x)) hok [] hm
        exact absurd rfl hbad.1
      · refine ⟨.emptyMsa i, ?_, rfl⟩
        have hie : msas.isEmpty = false := by simp [List.isEmpty_iff, hne]
        simp only [make_msa_features, hie, Bool.false_eq_true, if_false, herr]
  · intro i h
    by_cases hmn : msas = []
    · subst hmn
      simp [make_msa_features] at h
    · have hie : msas.isEmpty = false := by simp [List.isEmpty_iff, hmn]
      rcases hp : processMsas msas dms 0 ⟨[], [], []⟩ with e | st
      · have he : e = .emptyMsa i := by
          simpa only [make_msa_features, hie, Bool.false_eq_true, if_false,
            hp, Except.error.injEq] using h
        subst he
        rcases processMsas_emptyMsa_pos msas dms 0 _ i hp with ⟨j, hj, hsome⟩
        rwa [show j = i by omega] at hsome
      · by_cases h1 : isRectangular st.deletion_matrix <;>
          by_cases h2 : isRectangular st.int_msa <;>
          simp [make_msa_features, hie, hp, h1, h2] at h

/-- Witness for the empty-input claim at a concrete list whose second MSA
has zero rows: the backward direction of the characterization yields an
empty-input error. -/
theorem msa_empty_input_error_witness :
    allResiduesKnown [["AC"], []] = true ∧
    parallelLe [["AC"], []] [[[0, 0]], []] = true ∧
    ∃ e, make_msa_features [["AC"], []] [[[0, 0]], []] = .error e ∧
      isEmptyInputError e = true :=
  ⟨by decide, by decide,
    ((msa_empty_input_error [["AC"], []] [[[0, 0]], []] (by decide)
      (by decide)).1).mpr (Or.inr ⟨[], by decide, rfl⟩)⟩

/-- C9: Under the non-emptiness and parallelism preconditions, the
unknown-residue error is raised exactly when some row holds a symbol
outside the encoding map (deduplication is by the full sequence string, so
a kept row holds such a symbol exactly when any row does); on success every
kept row of `msa` is the residue-by-residue image of its sequence under the
mapping; and in the error case no output dictionary is returned. -/
theorem msa_unknown_residue_error (msas : List (List String))
    (dms : List DeletionMatrix)
    (hne : msas ≠ [])
    (hall : allMsasNonempty msas = true)
    (hpar : parallelLe msas dms = true) :
    (make_msa_features msas dms = .error .unknownResidue ↔
      ∃ m ∈ msas, ∃ s ∈ m, encodeSeq s = none) ∧
    (∀ f, make_msa_features msas dms = .ok f →
      f.msa = (newSeqs [] msas.flatten).map encRow) ∧
    (make_msa_features msas dms = .error .unknownResidue →
      ∀ f, make_msa_features msas dms ≠ .ok f) := by
  have hnes := (allMsasNonempty_iff msas).mp hall
  have hie : msas.isEmpty = false := by simp [List.isEmpty_iff, hne]
  refine ⟨⟨?_, ?_⟩, ?_, ?_⟩
  · intro h
    by_contra hcon
    push_neg at hcon
    have hknown : allResiduesKnown msas = true := by
      rw [allResiduesKnown_iff]
      intro m hm s hs
      have hs1 := hcon m hm s hs
      rwa [Option.isSome_iff_ne_none]
    rcases make_msa_features_ok_or_ragged msas dms hne hall hknown hpar with
      ⟨f, hok⟩ | hrag
    · rw [hok] at h
      exact Except.noConfusion h
    · rw [hrag] at h
      have hre : PipelineError.raggedArray = PipelineError.unknownResidue := by
        injection h
      exact PipelineError.noConfusion hre
  · rintro ⟨m, hm, s, hs, hsnone⟩
    rcases processMsas_ok_or_unknown msas dms 0 ⟨[], [], []⟩ hnes hpar with
      ⟨st1, hok⟩ | herr
    · have hg := processMsas_ok_good msas dms 0 _ _
        (fun x hx => absurd hx (List.not_mem_nil x)) hok m hm
      have hgs := hg.2 s hs
      rw [hsnone] at hgs
      simp at hgs
    · simp only [make_msa_features, hie, Bool.false_eq_true, if_false, herr]
  · intro f hok
    rcases hp : processMsas msas dms 0 ⟨[], [], []⟩ with e | st
    · simp only [make_msa_features, hie, Bool.false_eq_true, if_false,
        hp] at hok
      exact Except.noConfusion hok
    · have hg := processMsas_ok_good msas dms 0 _ _
        (fun x hx => absurd hx (List.not_mem_nil x)) hp
      have hknown : allResiduesKnown msas = true := by
        rw [allResiduesKnown_iff]
        intro m hm
        exact (hg m hm).2
      exact (make_msa_features_ok_content msas dms hne hall hknown hpar
        f hok).1
  · intro h f hf
    rw [h] at hf
    exact Except.noConfusion hf

/-- Witness for the unknown-residue claim: the sole row "A?" contains the
unmapped symbol `?`, so the call fails with the unknown-residue error. -/
theorem msa_unknown_residue_error_witness :
    ([["A?"]] : List (List String)) ≠ [] ∧
    allMsasNonempty [["A?"]] = true ∧
    parallelLe [["A?"]] [[[0, 0]]] = true ∧
    make_msa_features [["A?"]] [[[0, 0]]] = .error .unknownResidue :=
  ⟨by decide, by decide, by decide,
    ((msa_unknown_residue_error [["A?"]] [[[0, 0]]] (by decide) (by decide)
      (by decide)).1).mpr ⟨["A?"], by decide, "A?", by decide, by decide⟩⟩

/-- C5 counterexample: on a query file parsing to zero records the
multiple-sequence error is raised even though the file does not contain
more than one sequence record, so "raises if and only if more than one
record" fails in the only-if direction. -/
theorem process_fasta_zero_records :
    process_fasta_sequence_features [] [] = .error .multiSequence ∧
    ¬ 1 < ([] : List String).length :=
  ⟨rfl, by decide⟩

/-- C5 amended: the multiple-sequence error is raised exactly when the
number of parsed records differs from one (more than one record or zero
records); with exactly one record, that record's sequence and description
are the ones used to build the sequence features. -/
theorem process_fasta_record_check (input_seqs input_descs : List String) :
    (process_fasta_sequence_features input_seqs input_descs
        = .error .multiSequence ↔ input_seqs.length ≠ 1) ∧
    (input_seqs.length = 1 →
      process_fasta_sequence_features input_seqs input_descs
        = .ok (make_sequence_features (input_seqs.headD "")
            (input_descs.headD "") (input_seqs.headD "").length)) := by
  refine ⟨⟨?_, ?_⟩, ?_⟩
  · intro h
    intro hlen
    simp [process_fasta_sequence_features, hlen] at h
  · intro h
    simp [process_fasta_sequence_features, h]
  · intro h
    simp [process_fasta_sequence_features, h]

/-- Witness for the amended record-count claim at a one-record input. -/
theorem process_fasta_record_check_witness :
    (process_fasta_sequence_features ["ACDEFG"] ["id1"]
        = .error .multiSequence ↔ (["ACDEFG"] : List String).length ≠ 1) ∧
    process_fasta_sequence_features ["ACDEFG"] ["id1"]
      = .ok (make_sequence_features "ACDEFG" "id1" ("ACDEFG" : String).length) :=
  ⟨(process_fasta_record_check ["ACDEFG"] ["id1"]).1,
    (process_fasta_record_check ["ACDEFG"] ["id1"]).2 (by decide)⟩

/-- C6: With pairwise disjoint key sets, the merged dictionary of
`process_fasta` binds exactly the union of the key sets, each key to its
source dictionary's value; and in any two-dictionary merge a key bound in
both takes the later argument's value. -/
theorem feature_merge_disjoint_union {V : Type}
    (sequence_features msa_features template_features : String → Option V)
    (h1 : ∀ k, ¬((sequence_features k).isSome = true ∧
      (msa_features k).isSome = true))
    (h2 : ∀ k, ¬((sequence_features k).isSome = true ∧
      (template_features k).isSome = true))
    (h3 : ∀ k, ¬((msa_features k).isSome = true ∧
      (template_features k).isSome = true)) :
    (∀ k, (processFastaMerge sequence_features msa_features
        template_features k).isSome = true ↔
      ((sequence_features k).isSome = true ∨
        (msa_features k).isSome = true ∨
        (template_features k).isSome = true)) ∧
    (∀ k v, sequence_features k = some v →
      processFastaMerge sequence_features msa_features template_features k
        = some v) ∧
    (∀ k v, msa_features k = some v →
      processFastaMerge sequence_features msa_features template_features k
        = some v) ∧
    (∀ k v, template_features k = some v →
      processFastaMerge sequence_features msa_features template_features k
        = some v) ∧
    (∀ (a b : String → Option V) (k : String) (v : V),
      b k = some v → dictMerge a b k = some v) := by
  refine ⟨?_, ?_, ?_, ?_, ?_⟩
  · intro k
    rcases hm : msa_features k with _ | vm <;>
      rcases ht : template_features k with _ | vt <;>
        simp [processFastaMerge, dictMerge, hm, ht]
  · intro k v hv
    have hm : msa_features k = none := by
      rcases hmk : msa_features k with _ | vm
      · rfl
      · exact absurd ⟨by simp [hv], by simp [hmk]⟩ (h1 k)
    have ht : template_features k = none := by
      rcases htk : template_features k with _ | vt
      · rfl
      · exact absurd ⟨by simp [hv], by simp [htk]⟩ (h2 k)
    simp [processFastaMerge, dictMerge, hm, ht, hv]
  · intro k v hv
    have ht : template_features k = none := by
      rcases htk : template_features k with _ | vt
      · rfl
      · exact absurd ⟨by simp [hv], by simp [htk]⟩ (h3 k)
    simp [processFastaMerge, dictMerge, ht, hv]
  · intro k v hv
    simp [processFastaMerge, dictMerge, hv]
  · intro a b k v hv
    simp [dictMerge, hv]

/-- Concrete single-key dictionary bound at "seq_feature_key". -/
def seqPick : String → Option Nat :=
  fun k => if k = "seq_feature_key" then some 1 else none

/-- Concrete single-key dictionary bound at "msa_feature_key". -/
def msaPick : String → Option Nat :=
  fun k => if k = "msa_feature_key" then some 2 else none

/-- Concrete single-key dictionary bound at "template_feature_key". -/
def tmplPick : String → Option Nat :=
  fun k => if k = "template_feature_key" then some 3 else none

/-- Witness for the disjoint-merge claim at three concrete disjoint
single-key dictionaries. -/
theorem feature_merge_disjoint_union_witness :
    (∀ k, ¬((seqPick k).isSome = true ∧ (msaPick k).isSome = true)) ∧
    (∀ k, ¬((seqPick k).isSome = true ∧ (tmplPick k).isSome = true)) ∧
    (∀ k, ¬((msaPick k).isSome = true ∧ (tmplPick k).isSome = true)) ∧
    ((∀ k, (processFastaMerge seqPick msaPick tmplPick k).isSome = true ↔
        ((seqPick k).isSome = true ∨ (msaPick k).isSome = true ∨
          (tmplPick k).isSome = true)) ∧
      (∀ k v, seqPick k = some v →
        processFastaMerge seqPick msaPick tmplPick k = some v) ∧
      (∀ k v, msaPick k = some v →
        processFastaMerge seqPick msaPick tmplPick k = some v) ∧
      (∀ k v, tmplPick k = some v →
        processFastaMerge seqPick msaPick tmplPick k = some v) ∧
      (∀ (a b : String → Option Nat) (k : String) (v : Nat),
        b k = some v → dictMerge a b k = some v)) := by
  have hd1 : ∀ k, ¬((seqPick k).isSome = true ∧ (msaPick k).isSome = true) := by
    intro k
    by_cases h1 : k = "seq_feature_key" <;> by_cases h2 : k = "msa_feature_key" <;>
      simp [seqPick, msaPick, h1, h2]
  have hd2 : ∀ k, ¬((seqPick k).isSome = true ∧ (tmplPick k).isSome = true) := by
    intro k
    by_cases h1 : k = "seq_feature_key" <;>
      by_cases h2 : k = "template_feature_key" <;>
      simp [seqPick, tmplPick, h1, h2]
  have hd3 : ∀ k, ¬((msaPick k).isSome = true ∧ (tmplPick k).isSome = true) := by
    intro k
    by_cases h1 : k = "msa_feature_key" <;>
      by_cases h2 : k = "template_feature_key" <;>
      simp [msaPick, tmplPick, h1, h2]
  exact ⟨hd1, hd2, hd3, feature_merge_disjoint_union seqPick msaPick tmplPick
    hd1 hd2 hd3⟩

/-- C8: The chain-selection step of `process_mmcif` with `chain_id` omitted
selects chain "A" on a structure record with chains ["A", "B"] (the first
chain found), and raises the no-chain error on a record with zero chains. -/
theorem select_chain_first_or_error :
    selectChainId [⟨"A"⟩, ⟨"B"⟩] none = .ok "A" ∧
    selectChainId [] none = .error .noChain :=
  ⟨rfl, rfl⟩

/-- C10: The two entry points merge their three feature dictionaries in
different orders.  On a key bound in both the MSA features and the template
features, `process_fasta` (merging sequence, MSA, then template features)
returns the template value, while `process_mmcif` (merging structural,
template, then MSA features) returns the MSA value. -/
theorem merge_collision_winner_differs {V : Type}
    (sequence_features msa_features template_features
      mmcif_feats : String → Option V)
    (k : String) (vm vt : V)
    (hm : msa_features k = some vm) (ht : template_features k = some vt) :
    processFastaMerge sequence_features msa_features template_features k
      = some vt ∧
    processMmcifMerge mmcif_feats template_features msa_features k
      = some vm := by
  constructor
  · simp [processFastaMerge, dictMerge, hm, ht]
  · simp [processMmcifMerge, dictMerge, hm, ht]

/-- Witness for the collision-winner claim: on the shared key
"msa_feature_key" is absent, so use dictionaries both binding "shared": the
fasta path returns the template value 3, the mmcif path the MSA value 2,
and the two results differ. -/
theorem merge_collision_winner_differs_witness :
    (fun k => if k = "shared" then some 2 else none : String → Option Nat)
        "shared" = some 2 ∧
    (fun k => if k = "shared" then some 3 else none : String → Option Nat)
        "shared" = some 3 ∧
    (processFastaMerge (fun _ => none)
        (fun k => if k = "shared" then some 2 else none)
        (fun k => if k = "shared" then some 3 else none) "shared" = some 3 ∧
      processMmcifMerge (fun _ => none)
        (fun k => if k = "shared" then some 3 else none)
        (fun k => if k = "shared" then some 2 else none) "shared" = some 2) :=
  ⟨by simp, by simp,
    merge_collision_winner_differs (fun _ => none)
      (fun k => if k = "shared" then some 2 else none)
      (fun k => if k = "shared" then some 3 else none)
      (fun _ => none) "shared" 2 3 (by simp) (by simp)⟩

/-- The category index used for any symbol is below the alphabet size
(unknown symbols fall back to the `X` index 20). -/
theorem restype_id_lt (c : Char) :
    (restype_order_with_x c).getD 20 < restype_num_with_x := by
  rcases h : restype_order_with_x_table.find? (fun p => p.1 == c) with _ | p
  · simp [restype_order_with_x, h, restype_num_with_x]
  · have hp : p ∈ restype_order_with_x_table := List.mem_of_find?_eq_some h
    have hlt : p.2 < 21 := by
      have hall : ∀ q ∈ restype_order_with_x_table, q.2 < 21 := by decide
      exact hall p hp
    simpa [restype_order_with_x, h, restype_num_with_x] using hlt

/-- An indicator sum over a list avoiding the index is zero. -/
theorem sum_indicator_eq_zero (l : List Nat) (id : Nat) (h : id ∉ l) :
    (l.map (fun j => if j = id then (1 : Nat) else 0)).sum = 0 := by
  induction l with
  | nil => rfl
  | cons a t ih =>
    have ha : a ≠ id := fun he => h (he ▸ List.mem_cons_self _ _)
    simp [ha, ih (fun ht => h (List.mem_cons_of_mem _ ht))]

/-- An indicator sum over a duplicate-free list containing the index is
exactly one. -/
theorem sum_indicator_eq_one (l : List Nat) (id : Nat) (hnd : l.Nodup)
    (hm : id ∈ l) :
    (l.map (fun j => if j = id then (1 : Nat) else 0)).sum = 1 := by
  induction l with
  | nil => cases hm
  | cons a t ih =>
    rcases List.mem_cons.mp hm with rfl | hm2
    · have hid : id ∉ t := (List.nodup_cons.mp hnd).1
      simp [sum_indicator_eq_zero t id hid]
    · have ha : a ≠ id := fun he => (List.nodup_cons.mp hnd).1 (he ▸ hm2)
      simp [ha, ih (List.nodup_cons.mp hnd).2 hm2]

/-- Every row of the one-hot encoding has alphabet-size entries summing to
exactly one. -/
theorem sequence_to_onehot_row (sequence : String) :
    ∀ row ∈ sequence_to_onehot sequence,
    row.length = restype_num_with_x ∧ row.sum = 1 := by
  intro row hrow
  rcases List.mem_map.mp hrow with ⟨c, _, rfl⟩
  constructor
  · simp
  · exact sum_indicator_eq_one (List.range restype_num_with_x) _
      (List.nodup_range _) (List.mem_range.mpr (restype_id_lt c))

/-- C7: `make_sequence_features("ACDEFG", "id1", 6)` yields a one-hot
`aatype` of shape (6, alphabet-size) with every row summing to exactly 1,
`residue_index` equal to `[0,1,2,3,4,5]` and `seq_length` equal to
`[6,6,6,6,6,6]`; in general, with `num_res` equal to the sequence length,
`residue_index` is `0..num_res-1`, `seq_length` broadcasts `num_res` to
every position, and every one-hot row sums to 1. -/
theorem sequence_features_shapes :
    (make_sequence_features "ACDEFG" "id1" 6).aatype.length = 6 ∧
    (∀ row ∈ (make_sequence_features "ACDEFG" "id1" 6).aatype,
      row.length = restype_num_with_x ∧ row.sum = 1) ∧
    (make_sequence_features "ACDEFG" "id1" 6).residue_index
      = [0, 1, 2, 3, 4, 5] ∧
    (make_sequence_features "ACDEFG" "id1" 6).seq_length
      = [6, 6, 6, 6, 6, 6] ∧
    (∀ sequence description : String,
      (make_sequence_features sequence description
          sequence.length).residue_index = List.range sequence.length ∧
      (make_sequence_features sequence description
          sequence.length).seq_length
        = List.replicate sequence.length sequence.length ∧
      (make_sequence_features sequence description
          sequence.length).aatype.length = sequence.length ∧
      ∀ row ∈ (make_sequence_features sequence description
          sequence.length).aatype,
        row.length = restype_num_with_x ∧ row.sum = 1) := by
  refine ⟨by decide, ?_, by decide, by decide, ?_⟩
  · intro row hrow
    exact sequence_to_onehot_row "ACDEFG" row hrow
  · intro sequence description
    refine ⟨rfl, rfl, ?_,
      fun row hrow => sequence_to_onehot_row sequence row hrow⟩
    simp [make_sequence_features, sequence_to_onehot]

/-- Witness for the sequence-feature claim: the first one-hot row of the
concrete call sums to 1, and the general broadcast holds at "A". -/
theorem sequence_features_shapes_witness :
    ((make_sequence_features "ACDEFG" "id1" 6).aatype.headD []).sum = 1 ∧
    (make_sequence_features "ACDEFG" "id1" 6).residue_index
      = [0, 1, 2, 3, 4, 5] ∧
    (make_sequence_features "A" "d" ("A" : String).length).seq_length
      = List.replicate ("A" : String).length ("A" : String).length :=
  ⟨(sequence_features_shapes.2.1 _ (by decide)).2,
    sequence_features_shapes.2.2.1,
    (sequence_features_shapes.2.2.2.2 "A" "d").2.1⟩
